import Mathlib

/-!
Verification of the ab-test extension core (src/index.js).

Shallow embedding of the diff engine and the scoped-state-substitution
controller of the ab-test extension, together with proofs of the spec's
claims about them.

JavaScript values are embedded as follows: plain objects become
structures, `null`/`undefined` optional values become `Option`,
JS arrays become `List`, a JS `Map` over string keys becomes an
association list with JS `Map` insertion semantics (duplicate key
overwrites the value in place, insertion order preserved), and
`structuredClone` is the identity because the embedding is pure.
-/

set_option autoImplicit false

/-- A prompt fragment as stored in a snapshot (`prompts` array elements).
Fields used by the source: `identifier`, `name`, `content`, plus the
`role`, `marker` and `system_prompt` attributes of the data model. -/
structure Prompt where
  identifier : String
  name : String
  content : String
  role : String
  marker : Bool
  system_prompt : Bool
deriving DecidableEq, Repr

/-- One element of an order list: `{identifier, enabled}`. -/
structure OrderItem where
  identifier : String
  enabled : Bool
deriving DecidableEq, Repr

/-- One entry of `promptOrder`; its `order` list may be absent
(the source guards every access with `o.order?.`). -/
structure PromptOrderEntry where
  order : Option (List OrderItem)
deriving DecidableEq, Repr

/-- A captured snapshot, as built by `captureCurrentPromptState`. -/
structure PromptState where
  prompts : List Prompt
  promptOrder : List PromptOrderEntry
  presetName : String
  enabledCount : Nat
  timestamp : Nat
  name : String
deriving DecidableEq, Repr

/-- A change record produced by `getPromptDifferences`; the JS code tags
records with a `type` string, embedded here as a tagged variant. -/
inductive DiffRecord where
  | removed (identifier : String) (name : String)
  | contentChanged (identifier : String) (name : String) (contentA : String) (contentB : String)
  | enabledChanged (identifier : String) (name : String) (enabledA : Option Bool) (enabledB : Option Bool)
  | added (identifier : String) (name : String)
deriving DecidableEq, Repr

/-- The identifier field of a change record. -/
def DiffRecord.idOf : DiffRecord → String
  | .removed i _ => i
  | .contentChanged i _ _ _ => i
  | .enabledChanged i _ _ _ => i
  | .added i _ => i

/-- Whether a change record is an `added` record. -/
def DiffRecord.isAdd : DiffRecord → Bool
  | .added _ _ => true
  | _ => false

/-- JS `Map.set` on an association list: overwrite in place if the key is
present, otherwise append at the end (JS `Map` preserves first-insertion
order of keys). -/
def mapSet (m : List (String × Prompt)) (k : String) (v : Prompt) : List (String × Prompt) :=
  if m.any (fun kv => kv.1 == k) then
    m.map (fun kv => if kv.1 == k then (k, v) else kv)
  else
    m ++ [(k, v)]

/-- Embeds `new Map(state.prompts.map(p => [p.identifier, p]))`. -/
def promptMap (ps : List Prompt) : List (String × Prompt) :=
  ps.foldl (fun m p => mapSet m p.identifier p) []

/-- JS `Map.get`. -/
def mapGet (m : List (String × Prompt)) (k : String) : Option Prompt :=
  (m.find? (fun kv => kv.1 == k)).map Prod.snd

/-- JS `Map.has`. -/
def mapHas (m : List (String × Prompt)) (k : String) : Bool :=
  m.any (fun kv => kv.1 == k)

/-- Embeds `o.order?.some(e => e.identifier === id)` for one `promptOrder` entry. -/
def entryHas (o : PromptOrderEntry) (id : String) : Bool :=
  match o.order with
  | none => false
  | some l => l.any (fun e => e.identifier == id)

/-- Resolution of the enabled flag of `id` in a snapshot, i.e.
`state.promptOrder.find(o => o.order?.some(e => e.identifier === id))`
followed by `found?.order?.find(e => e.identifier === id)?.enabled`. -/
def resolveEnabled (po : List PromptOrderEntry) (id : String) : Option Bool :=
  match po.find? (fun o => entryHas o id) with
  | none => none
  | some o => ((o.order.getD []).find? (fun e => e.identifier == id)).map OrderItem.enabled

/-- Embeds `getPromptDifferences(stateA, stateB)` (src/index.js lines 154-204).
Null inputs are `none`; the two `for ... of` loops over the maps are
embedded as `foldl` over the association lists. -/
def getPromptDifferences (stateA stateB : Option PromptState) : List DiffRecord :=
  match stateA, stateB with
  | some A, some B =>
    let promptsA := promptMap A.prompts
    let promptsB := promptMap B.prompts
    let d1 := promptsA.foldl (fun acc kv =>
      match mapGet promptsB kv.1 with
      | none => acc ++ [DiffRecord.removed kv.1 kv.2.name]
      | some promptB =>
        let acc1 :=
          if kv.2.content ≠ promptB.content then
            acc ++ [DiffRecord.contentChanged kv.1 kv.2.name kv.2.content promptB.content]
          else acc
        if resolveEnabled A.promptOrder kv.1 ≠ resolveEnabled B.promptOrder kv.1 then
          acc1 ++ [DiffRecord.enabledChanged kv.1 kv.2.name
                    (resolveEnabled A.promptOrder kv.1) (resolveEnabled B.promptOrder kv.1)]
        else acc1) []
    let d2 := promptsB.foldl (fun acc kv =>
      if mapHas promptsA kv.1 then acc
      else acc ++ [DiffRecord.added kv.1 kv.2.name]) []
    d1 ++ d2
  | _, _ => []

/-- The `differences.length === 0` test of `renderDifferences`
(src/index.js line 237), the only condition under which callers render
"No differences found". -/
def rendersNoDifferences (differences : List DiffRecord) : Bool :=
  differences.length == 0

/-- The records the per-identifier loop of `getPromptDifferences` emits
for one entry `kv` of A's prompt map (observer used to state ordering
and membership facts; `getPromptDifferences` itself is the `foldl`). -/
def compareRecords (A B : PromptState) (kv : String × Prompt) : List DiffRecord :=
  match mapGet (promptMap B.prompts) kv.1 with
  | none => [DiffRecord.removed kv.1 kv.2.name]
  | some promptB =>
    (if kv.2.content ≠ promptB.content then
      [DiffRecord.contentChanged kv.1 kv.2.name kv.2.content promptB.content]
    else []) ++
    (if resolveEnabled A.promptOrder kv.1 ≠ resolveEnabled B.promptOrder kv.1 then
      [DiffRecord.enabledChanged kv.1 kv.2.name
        (resolveEnabled A.promptOrder kv.1) (resolveEnabled B.promptOrder kv.1)]
    else [])

/-- The records the addition loop of `getPromptDifferences` emits for one
entry `kv` of B's prompt map. -/
def addedRecords (A : PromptState) (kv : String × Prompt) : List DiffRecord :=
  if mapHas (promptMap A.prompts) kv.1 then []
  else [DiffRecord.added kv.1 kv.2.name]

/-- One transcript message (`context.chat` element) as built by the
controller: `{name, is_user, mes, send_date}`. -/
structure ChatMessage where
  name : String
  is_user : Bool
  mes : String
  send_date : Nat
deriving DecidableEq, Repr

/-- Embeds `promptManager.serviceSettings`: the live prompt configuration. -/
structure PMSettings where
  prompts : List Prompt
  prompt_order : List PromptOrderEntry
deriving DecidableEq, Repr

/-- The mutable ambient state touched by the controller: the live prompt
configuration (absent while the prompt manager is uninitialised), the
`oai_settings.preset_settings_openai` value, the transcript
(`context.chat`), `context.name1`, the clock reading used for
`Date.now()`, and the `new Date().toLocaleString()` rendering of it. -/
structure LiveState where
  pmSettings : Option PMSettings
  presetSetting : Option String
  chat : List ChatMessage
  name1 : String
  now : Nat
  localeString : String
deriving DecidableEq, Repr

/-- Embeds `oai_settings?.preset_settings_openai || 'Unknown Preset'`
(the empty string is falsy in JS). -/
def presetNameOf (live : LiveState) : String :=
  match live.presetSetting with
  | some s => if s = "" then "Unknown Preset" else s
  | none => "Unknown Preset"

/-- The `enabledCount` reduction of `captureCurrentPromptState`:
enabled, non-marker order entries (an entry whose identifier resolves to
no prompt counts, because `!undefined?.marker` is true in JS). -/
def enabledCountOf (prompts : List Prompt) (promptOrder : List PromptOrderEntry) : Nat :=
  promptOrder.foldl (fun count o =>
    count + ((o.order.getD []).filter (fun e =>
      e.enabled &&
        !(((prompts.find? (fun p => p.identifier == e.identifier)).map Prompt.marker).getD false))).length) 0

/-- Embeds `captureCurrentPromptState()` (src/index.js lines 66-87): returns
`none` when the prompt manager is unavailable, otherwise a deep copy
of the live configuration (`structuredClone` is the identity on pure
values) plus provenance metadata. -/
def captureCurrentPromptState (live : LiveState) : Option PromptState :=
  match live.pmSettings with
  | none => none
  | some pm =>
    some { prompts := pm.prompts
           promptOrder := pm.prompt_order
           presetName := presetNameOf live
           enabledCount := enabledCountOf pm.prompts pm.prompt_order
           timestamp := live.now
           name := "[" ++ presetNameOf live ++ "] " ++ live.localeString }

/-- Embeds `applyPromptState(state)` (src/index.js lines 89-99): writes a deep
copy of the supplied state into the live configuration; returns `false`
and does nothing when the prompt manager or the state is absent.
(`promptManager.render(false)` is a pure UI notification.) -/
def applyPromptState (live : LiveState) (state : Option PromptState) : Bool × LiveState :=
  match live.pmSettings, state with
  | some _, some s =>
    (true, { live with pmSettings := some { prompts := s.prompts, prompt_order := s.promptOrder } })
  | _, _ => (false, live)

/-- The observable outcome of the awaited external
`context.generate('quiet', ...)` call: it either resolves with an
optional result string or rejects with an error message, and in both
cases it may have mutated the shared transcript arbitrarily
(`chatAfter`). -/
inductive GenOutcome where
  | success (chatAfter : List ChatMessage) (result : Option String)
  | failure (chatAfter : List ChatMessage) (message : String)
deriving DecidableEq, Repr

/-- The final `fullText` of the success path: the callback left
`fullText` at the last partial text delivered (or `''`), then
`fullText = result || fullText` (a `none` or empty `result` keeps the
callback text). -/
def finalText (callbackTexts : List String) (result : Option String) : String :=
  let fullText := (callbackTexts.getLast?).getD ""
  match result with
  | some r => if r = "" then fullText else r
  | none => fullText

/-- Embeds `generateWithState(state, testMessage, outputElement)`
(src/index.js lines 101-152). The DOM sink is elided (pure embedding);
the external generation call is a parameter `gen` together with the
partial texts its callback delivered. The `try/catch/finally` is
embedded by the explicit sequencing: catch turns a rejection into the
`Error: ...` string, and the finally block (transcript truncate-and-
refill, conditional `applyPromptState(originalState)`) runs on both
paths, which is also why the embedding is a total function (the JS
function never raises to its caller). Returns the produced output
string together with the live state after the call. -/
def generateWithState (live : LiveState) (state : Option PromptState)
    (testMessage : Option String) (gen : GenOutcome) (callbackTexts : List String) :
    String × LiveState :=
  let originalState := captureCurrentPromptState live
  let originalChat := live.chat
  let live1 := (applyPromptState live state).2
  let live2 :=
    match testMessage with
    | some m =>
      if m.trim = "" then live1
      else { live1 with chat := live1.chat ++
              [ChatMessage.mk live1.name1 true m.trim live1.now] }
    | none => live1
  let (output, live3) :=
    match gen with
    | .success chatAfter result => (finalText callbackTexts result, { live2 with chat := chatAfter })
    | .failure chatAfter msg => ("Error: " ++ msg, { live2 with chat := chatAfter })
  let live4 := { live3 with chat := originalChat }
  let live5 :=
    match originalState with
    | some os => (applyPromptState live4 (some os)).2
    | none => live4
  (output, live5)

/-- JS `text.split('\n')` on the character list: always at least one
piece, a separator at the end yields a trailing empty piece. -/
def splitNlC : List Char → List (List Char)
  | [] => [[]]
  | c :: cs =>
    match splitNlC cs with
    | [] => [[c]]
    | h :: t => if c = '\n' then [] :: h :: t else (c :: h) :: t

/-- Embeds `text.split('\n')` (no special-casing of trailing newlines). -/
def splitLines (s : String) : List String :=
  (splitNlC s.data).map String.mk

/-- The ECMAScript `\s` character class (WhiteSpace ∪ LineTerminator). -/
def isJsWs (c : Char) : Bool :=
  c = ' ' || c = '\t' || c = '\n' || c = '\x0b' || c = '\x0c' || c = '\r' ||
  c.toNat = 0xA0 || c.toNat = 0x1680 ||
  (0x2000 ≤ c.toNat && c.toNat ≤ 0x200A) ||
  c.toNat = 0x2028 || c.toNat = 0x2029 ||
  c.toNat = 0x202F || c.toNat = 0x205F || c.toNat = 0x3000 || c.toNat = 0xFEFF

/-- JS `line.split(/(\s+)/)` on the character list: split on maximal
whitespace runs, keeping each run (the captured separator) as an
element; pieces before/after/between separators are kept even when
empty, so the result alternates word, run, word, ..., word. -/
def splitWsC : List Char → List (List Char)
  | [] => [[]]
  | c :: cs =>
    match splitWsC cs with
    | [] => [[c]]
    | h :: t =>
      if isJsWs c then
        match h, t with
        | [], h2 :: t2 => [] :: (c :: h2) :: t2
        | _, _ => [] :: [c] :: h :: t
      else
        (c :: h) :: t

/-- Embeds `line.split(/(\s+)/)`: whitespace-preserving tokenisation. -/
def splitKeepWs (s : String) : List String :=
  (splitWsC s.data).map String.mk

/-- A word-level diff record `{text, type}` with `type` one of
`same`/`added`/`removed`. -/
structure WordRecord where
  text : String
  type : String
deriving DecidableEq, Repr

/-- A line-level diff record `{text, type}` plus the optional `wordDiff`
payload attached to `changed` records. -/
structure LineRecord where
  text : String
  type : String
  wordDiff : Option (List WordRecord)
deriving DecidableEq, Repr

/-- Loop body of `computeWordDiff` at index `i` (`undefined` array reads
become `none`; both sides `none` cannot occur for `i < maxLen`). -/
def wdStep (wordsA wordsB : List String) (acc : List WordRecord × List WordRecord) (i : Nat) :
    List WordRecord × List WordRecord :=
  match wordsA[i]?, wordsB[i]? with
  | none, none => acc
  | none, some wb => (acc.1, acc.2 ++ [⟨wb, "added"⟩])
  | some wa, none => (acc.1 ++ [⟨wa, "removed"⟩], acc.2)
  | some wa, some wb =>
    if wa = wb then (acc.1 ++ [⟨wa, "same"⟩], acc.2 ++ [⟨wb, "same"⟩])
    else (acc.1 ++ [⟨wa, "removed"⟩], acc.2 ++ [⟨wb, "added"⟩])

/-- Embeds `computeWordDiff(lineA, lineB)` (src/index.js lines 766-793). -/
def computeWordDiff (lineA lineB : String) : List WordRecord × List WordRecord :=
  let wordsA := splitKeepWs lineA
  let wordsB := splitKeepWs lineB
  (List.range (max wordsA.length wordsB.length)).foldl (wdStep wordsA wordsB) ([], [])

/-- Loop body of `computeLineDiff` at index `i`. -/
def ldStep (linesA linesB : List String) (acc : List LineRecord × List LineRecord) (i : Nat) :
    List LineRecord × List LineRecord :=
  match linesA[i]?, linesB[i]? with
  | none, none => acc
  | none, some lb => (acc.1 ++ [⟨"", "empty", none⟩], acc.2 ++ [⟨lb, "added", none⟩])
  | some la, none => (acc.1 ++ [⟨la, "removed", none⟩], acc.2 ++ [⟨"", "empty", none⟩])
  | some la, some lb =>
    if la = lb then (acc.1 ++ [⟨la, "same", none⟩], acc.2 ++ [⟨lb, "same", none⟩])
    else (acc.1 ++ [⟨la, "changed", some (computeWordDiff la lb).1⟩],
          acc.2 ++ [⟨lb, "changed", some (computeWordDiff la lb).2⟩])

/-- Embeds `computeLineDiff(textA, textB)` (src/index.js lines 736-764). -/
def computeLineDiff (textA textB : String) : List LineRecord × List LineRecord :=
  let linesA := splitLines textA
  let linesB := splitLines textB
  (List.range (max linesA.length linesB.length)).foldl (ldStep linesA linesB) ([], [])

/-- Positional recursion equivalent to the indexed loop of
`computeWordDiff` (per-index case analysis turned structural). -/
def wordDiffAux : List String → List String → List WordRecord × List WordRecord
  | [], [] => ([], [])
  | [], wb :: bs =>
    let r := wordDiffAux [] bs
    (r.1, ⟨wb, "added"⟩ :: r.2)
  | wa :: as, [] =>
    let r := wordDiffAux as []
    (⟨wa, "removed"⟩ :: r.1, r.2)
  | wa :: as, wb :: bs =>
    let r := wordDiffAux as bs
    if wa = wb then (⟨wa, "same"⟩ :: r.1, ⟨wb, "same"⟩ :: r.2)
    else (⟨wa, "removed"⟩ :: r.1, ⟨wb, "added"⟩ :: r.2)

/-- Positional recursion equivalent to the indexed loop of
`computeLineDiff`. -/
def lineDiffAux : List String → List String → List LineRecord × List LineRecord
  | [], [] => ([], [])
  | [], lb :: bs =>
    let r := lineDiffAux [] bs
    (⟨"", "empty", none⟩ :: r.1, ⟨lb, "added", none⟩ :: r.2)
  | la :: as, [] =>
    let r := lineDiffAux as []
    (⟨la, "removed", none⟩ :: r.1, ⟨"", "empty", none⟩ :: r.2)
  | la :: as, lb :: bs =>
    let r := lineDiffAux as bs
    if la = lb then (⟨la, "same", none⟩ :: r.1, ⟨lb, "same", none⟩ :: r.2)
    else (⟨la, "changed", some (computeWordDiff la lb).1⟩ :: r.1,
          ⟨lb, "changed", some (computeWordDiff la lb).2⟩ :: r.2)

/-- Sample prompt used by concrete witnesses: identifier `p1`, content
`Hello`, enabled in `sampleA`. -/
def promptP1A : Prompt := ⟨"p1", "Name1", "Hello", "system", false, false⟩

/-- The `p1` prompt as it appears in `sampleB`: content `Hi`. -/
def promptP1B : Prompt := ⟨"p1", "Name1", "Hi", "system", false, false⟩

/-- A prompt present only in `sampleB`. -/
def promptP2 : Prompt := ⟨"p2", "Name2", "Extra", "system", false, false⟩

/-- A prompt present in both samples but referenced by no order list. -/
def promptP3 : Prompt := ⟨"p3", "Name3", "Same", "system", false, false⟩

/-- Sample snapshot A: prompt `p1` (content `Hello`, enabled) and the
orderless prompt `p3`. -/
def sampleA : PromptState :=
  ⟨[promptP1A, promptP3], [⟨some [⟨"p1", true⟩]⟩], "P", 1, 0, "A"⟩

/-- Sample snapshot B: `p1` with content `Hi` and disabled, the
orderless prompt `p3`, plus a new prompt `p2`. -/
def sampleB : PromptState :=
  ⟨[promptP1B, promptP3, promptP2], [⟨some [⟨"p1", false⟩]⟩], "P", 0, 0, "B"⟩

theorem splitNlC_ne_nil (cs : List Char) : splitNlC cs ≠ [] := by
  cases cs with
  | nil => simp [splitNlC]
  | cons c cs =>
    cases h : splitNlC cs with
    | nil => simp [splitNlC, h]
    | cons x t => by_cases hc : c = '\n' <;> simp [splitNlC, h, hc]

theorem splitNlC_append_nl (cs : List Char) :
    splitNlC (cs ++ ['\n']) = splitNlC cs ++ [[]] := by
  induction cs with
  | nil => simp [splitNlC]
  | cons c cs ih =>
    cases h : splitNlC cs with
    | nil => exact absurd h (splitNlC_ne_nil cs)
    | cons x t =>
      rw [h] at ih
      by_cases hc : c = '\n' <;>
        simp [splitNlC, ih, h, hc]

theorem splitLines_push_nl (s : String) :
    splitLines (s.push '\n') = splitLines s ++ [""] := by
  have hdata : (s.push '\n').data = s.data ++ ['\n'] := rfl
  simp only [splitLines, hdata, splitNlC_append_nl, List.map_append, List.map_cons,
    List.map_nil]

theorem splitWsC_flatten (cs : List Char) : (splitWsC cs).flatten = cs := by
  induction cs with
  | nil => simp [splitWsC]
  | cons c cs ih =>
    cases h : splitWsC cs with
    | nil =>
      rw [h] at ih
      simp only [List.flatten_nil] at ih
      subst ih
      by_cases hws : isJsWs c <;> simp [splitWsC, hws]
    | cons x t =>
      rw [h] at ih
      simp only [splitWsC, h]
      by_cases hws : isJsWs c
      · rw [if_pos hws]
        cases x with
        | nil =>
          cases t with
          | nil => simpa using ih
          | cons x2 t2 =>
            simp only [List.flatten_cons, List.nil_append] at ih ⊢
            simp only [List.cons_append]
            rw [ih]
        | cons y ys =>
          simp only [List.flatten_cons, List.cons_append] at ih ⊢
          simp only [List.nil_append, List.singleton_append]
          rw [ih]
      · rw [if_neg hws]
        simp only [List.flatten_cons] at ih ⊢
        simp only [List.cons_append]
        rw [ih]

theorem foldl_append_mk (ls : List (List Char)) (a : List Char) :
    (ls.map String.mk).foldl (fun r s => r ++ s) (String.mk a)
      = String.mk (a ++ ls.flatten) := by
  induction ls generalizing a with
  | nil => simp
  | cons l ls ih =>
    simp only [List.map_cons, List.foldl_cons, List.flatten_cons]
    have hmk : String.mk a ++ String.mk l = String.mk (a ++ l) := rfl
    rw [hmk, ih]
    simp

theorem join_map_mk (ls : List (List Char)) :
    String.join (ls.map String.mk) = String.mk ls.flatten := by
  have h0 : ("" : String) = String.mk [] := rfl
  have hjoin : String.join (ls.map String.mk)
      = (ls.map String.mk).foldl (fun r s => r ++ s) "" := rfl
  rw [hjoin, h0, foldl_append_mk]
  simp

theorem splitKeepWs_join (s : String) : String.join (splitKeepWs s) = s := by
  rw [splitKeepWs, join_map_mk, splitWsC_flatten]

theorem wordDiffAux_fst_texts (as bs : List String) :
    (wordDiffAux as bs).1.map WordRecord.text = as := by
  induction as generalizing bs with
  | nil =>
    induction bs with
    | nil => simp [wordDiffAux]
    | cons b bs ihb => simp [wordDiffAux, ihb]
  | cons a as ih =>
    cases bs with
    | nil => simpa [wordDiffAux] using ih []
    | cons b bs =>
      by_cases hab : a = b <;> simp [wordDiffAux, hab, ih bs]

theorem wordDiffAux_snd_texts (as bs : List String) :
    (wordDiffAux as bs).2.map WordRecord.text = bs := by
  induction as generalizing bs with
  | nil =>
    induction bs with
    | nil => simp [wordDiffAux]
    | cons b bs ihb => simp [wordDiffAux, ihb]
  | cons a as ih =>
    cases bs with
    | nil => simpa [wordDiffAux] using ih []
    | cons b bs =>
      by_cases hab : a = b <;> simp [wordDiffAux, hab, ih bs]

theorem wordDiffAux_fst_types (as bs : List String) :
    ∀ r ∈ (wordDiffAux as bs).1, r.type = "same" ∨ r.type = "removed" := by
  induction as generalizing bs with
  | nil =>
    induction bs with
    | nil => simp [wordDiffAux]
    | cons b bs ihb =>
      intro r hr
      simp only [wordDiffAux] at hr
      exact ihb r hr
  | cons a as ih =>
    cases bs with
    | nil =>
      intro r hr
      simp only [wordDiffAux, List.mem_cons] at hr
      rcases hr with hr | hr
      · simp [hr]
      · exact ih [] r hr
    | cons b bs =>
      intro r hr
      simp only [wordDiffAux] at hr
      by_cases hab : a = b
      · rw [if_pos hab] at hr
        simp only [List.mem_cons] at hr
        rcases hr with hr | hr
        · simp [hr]
        · exact ih bs r hr
      · rw [if_neg hab] at hr
        simp only [List.mem_cons] at hr
        rcases hr with hr | hr
        · simp [hr]
        · exact ih bs r hr

theorem wordDiffAux_snd_types (as bs : List String) :
    ∀ r ∈ (wordDiffAux as bs).2, r.type = "same" ∨ r.type = "added" := by
  induction as generalizing bs with
  | nil =>
    induction bs with
    | nil => simp [wordDiffAux]
    | cons b bs ihb =>
      intro r hr
      simp only [wordDiffAux, List.mem_cons] at hr
      rcases hr with hr | hr
      · simp [hr]
      · exact ihb r hr
  | cons a as ih =>
    cases bs with
    | nil =>
      intro r hr
      simp only [wordDiffAux] at hr
      exact ih [] r hr
    | cons b bs =>
      intro r hr
      simp only [wordDiffAux] at hr
      by_cases hab : a = b
      · rw [if_pos hab] at hr
        simp only [List.mem_cons] at hr
        rcases hr with hr | hr
        · simp [hr]
        · exact ih bs r hr
      · rw [if_neg hab] at hr
        simp only [List.mem_cons] at hr
        rcases hr with hr | hr
        · simp [hr]
        · exact ih bs r hr
theorem wd_foldl_bridge (as bs : List String) (acc : List WordRecord × List WordRecord) :
    (List.range (max as.length bs.length)).foldl (wdStep as bs) acc
      = (acc.1 ++ (wordDiffAux as bs).1, acc.2 ++ (wordDiffAux as bs).2) := by
  induction as generalizing bs acc with
  | nil =>
    induction bs generalizing acc with
    | nil => simp [wordDiffAux]
    | cons b bs ihb =>
      have hlen : max (List.length ([] : List String)) (b :: bs).length = bs.length + 1 := by
        simp
      have hlen2 : bs.length = max (List.length ([] : List String)) bs.length := by simp
      rw [hlen, List.range_succ_eq_map, List.foldl_cons, List.foldl_map]
      have hshift : (fun (a : List WordRecord × List WordRecord) (i : Nat) =>
          wdStep [] (b :: bs) a (Nat.succ i)) = wdStep [] bs := by
        funext a i
        simp [wdStep]
      have hzero : wdStep [] (b :: bs) acc 0 = (acc.1, acc.2 ++ [⟨b, "added"⟩]) := by
        simp [wdStep]
      rw [hshift, hzero, hlen2, ihb]
      simp [wordDiffAux]
  | cons a as ih =>
    cases bs with
    | nil =>
      have hlen : max (a :: as).length (List.length ([] : List String)) = as.length + 1 := by
        simp
      have hlen2 : as.length = max as.length (List.length ([] : List String)) := by simp
      rw [hlen, List.range_succ_eq_map, List.foldl_cons, List.foldl_map]
      have hshift : (fun (x : List WordRecord × List WordRecord) (i : Nat) =>
          wdStep (a :: as) [] x (Nat.succ i)) = wdStep as [] := by
        funext x i
        simp [wdStep]
      have hzero : wdStep (a :: as) [] acc 0 = (acc.1 ++ [⟨a, "removed"⟩], acc.2) := by
        simp [wdStep]
      rw [hshift, hzero, hlen2, ih]
      simp [wordDiffAux]
    | cons b bs =>
      have hlen : max (a :: as).length (b :: bs).length = max as.length bs.length + 1 := by
        simp [Nat.succ_max_succ]
      rw [hlen, List.range_succ_eq_map, List.foldl_cons, List.foldl_map]
      have hshift : (fun (x : List WordRecord × List WordRecord) (i : Nat) =>
          wdStep (a :: as) (b :: bs) x (Nat.succ i)) = wdStep as bs := by
        funext x i
        simp [wdStep]
      rw [hshift]
      by_cases hab : a = b
      · have hzero : wdStep (a :: as) (b :: bs) acc 0
            = (acc.1 ++ [⟨a, "same"⟩], acc.2 ++ [⟨b, "same"⟩]) := by
          simp [wdStep, hab]
        rw [hzero, ih]
        simp [wordDiffAux, hab]
      · have hzero : wdStep (a :: as) (b :: bs) acc 0
            = (acc.1 ++ [⟨a, "removed"⟩], acc.2 ++ [⟨b, "added"⟩]) := by
          simp [wdStep, hab]
        rw [hzero, ih]
        simp [wordDiffAux, hab]

theorem computeWordDiff_eq_aux (lineA lineB : String) :
    computeWordDiff lineA lineB = wordDiffAux (splitKeepWs lineA) (splitKeepWs lineB) := by
  rw [computeWordDiff, wd_foldl_bridge]
  simp
theorem ld_foldl_bridge (as bs : List String) (acc : List LineRecord × List LineRecord) :
    (List.range (max as.length bs.length)).foldl (ldStep as bs) acc
      = (acc.1 ++ (lineDiffAux as bs).1, acc.2 ++ (lineDiffAux as bs).2) := by
  induction as generalizing bs acc with
  | nil =>
    induction bs generalizing acc with
    | nil => simp [lineDiffAux]
    | cons b bs ihb =>
      have hlen : max (List.length ([] : List String)) (b :: bs).length = bs.length + 1 := by
        simp
      have hlen2 : bs.length = max (List.length ([] : List String)) bs.length := by simp
      rw [hlen, List.range_succ_eq_map, List.foldl_cons, List.foldl_map]
      have hshift : (fun (x : List LineRecord × List LineRecord) (i : Nat) =>
          ldStep [] (b :: bs) x (Nat.succ i)) = ldStep [] bs := by
        funext x i
        simp [ldStep]
      have hzero : ldStep [] (b :: bs) acc 0
          = (acc.1 ++ [⟨"", "empty", none⟩], acc.2 ++ [⟨b, "added", none⟩]) := by
        simp [ldStep]
      rw [hshift, hzero, hlen2, ihb]
      simp [lineDiffAux]
  | cons a as ih =>
    cases bs with
    | nil =>
      have hlen : max (a :: as).length (List.length ([] : List String)) = as.length + 1 := by
        simp
      have hlen2 : as.length = max as.length (List.length ([] : List String)) := by simp
      rw [hlen, List.range_succ_eq_map, List.foldl_cons, List.foldl_map]
      have hshift : (fun (x : List LineRecord × List LineRecord) (i : Nat) =>
          ldStep (a :: as) [] x (Nat.succ i)) = ldStep as [] := by
        funext x i
        simp [ldStep]
      have hzero : ldStep (a :: as) [] acc 0
          = (acc.1 ++ [⟨a, "removed", none⟩], acc.2 ++ [⟨"", "empty", none⟩]) := by
        simp [ldStep]
      rw [hshift, hzero, hlen2, ih]
      simp [lineDiffAux]
    | cons b bs =>
      have hlen : max (a :: as).length (b :: bs).length = max as.length bs.length + 1 := by
        simp [Nat.succ_max_succ]
      rw [hlen, List.range_succ_eq_map, List.foldl_cons, List.foldl_map]
      have hshift : (fun (x : List LineRecord × List LineRecord) (i : Nat) =>
          ldStep (a :: as) (b :: bs) x (Nat.succ i)) = ldStep as bs := by
        funext x i
        simp [ldStep]
      rw [hshift]
      by_cases hab : a = b
      · have hzero : ldStep (a :: as) (b :: bs) acc 0
            = (acc.1 ++ [⟨a, "same", none⟩], acc.2 ++ [⟨b, "same", none⟩]) := by
          simp [ldStep, hab]
        rw [hzero, ih]
        simp [lineDiffAux, hab]
      · have hzero : ldStep (a :: as) (b :: bs) acc 0
            = (acc.1 ++ [⟨a, "changed", some (computeWordDiff a b).1⟩],
               acc.2 ++ [⟨b, "changed", some (computeWordDiff a b).2⟩]) := by
          simp [ldStep, hab]
        rw [hzero, ih]
        simp [lineDiffAux, hab]

theorem computeLineDiff_eq_aux (textA textB : String) :
    computeLineDiff textA textB = lineDiffAux (splitLines textA) (splitLines textB) := by
  rw [computeLineDiff, ld_foldl_bridge]
  simp

theorem lineDiffAux_fst_length (as bs : List String) :
    (lineDiffAux as bs).1.length = max as.length bs.length := by
  induction as generalizing bs with
  | nil =>
    induction bs with
    | nil => simp [lineDiffAux]
    | cons b bs ihb => simp [lineDiffAux, ihb]
  | cons a as ih =>
    cases bs with
    | nil => simpa [lineDiffAux] using ih []
    | cons b bs =>
      by_cases hab : a = b <;>
        simp [lineDiffAux, hab, ih bs, Nat.succ_max_succ]

theorem lineDiffAux_snd_length (as bs : List String) :
    (lineDiffAux as bs).2.length = max as.length bs.length := by
  induction as generalizing bs with
  | nil =>
    induction bs with
    | nil => simp [lineDiffAux]
    | cons b bs ihb => simp [lineDiffAux, ihb]
  | cons a as ih =>
    cases bs with
    | nil => simpa [lineDiffAux] using ih []
    | cons b bs =>
      by_cases hab : a = b <;>
        simp [lineDiffAux, hab, ih bs, Nat.succ_max_succ]
theorem lineDiffAux_fst_get (as bs : List String) (i : Nat) :
    (lineDiffAux as bs).1[i]? =
      match as[i]?, bs[i]? with
      | some la, some lb => some (if la = lb then ⟨la, "same", none⟩
          else ⟨la, "changed", some (computeWordDiff la lb).1⟩)
      | some la, none => some ⟨la, "removed", none⟩
      | none, some _ => some (⟨"", "empty", none⟩ : LineRecord)
      | none, none => none := by
  induction as generalizing bs i with
  | nil =>
    induction bs generalizing i with
    | nil => simp [lineDiffAux]
    | cons b bs ihb =>
      cases i with
      | zero => simp [lineDiffAux]
      | succ i => simpa [lineDiffAux] using ihb i
  | cons a as ih =>
    cases bs with
    | nil =>
      cases i with
      | zero => simp [lineDiffAux]
      | succ i => simpa [lineDiffAux] using ih [] i
    | cons b bs =>
      by_cases hab : a = b
      · cases i with
        | zero => simp [lineDiffAux, hab]
        | succ i => simpa [lineDiffAux, hab] using ih bs i
      · cases i with
        | zero => simp [lineDiffAux, hab]
        | succ i => simpa [lineDiffAux, hab] using ih bs i

theorem lineDiffAux_snd_get (as bs : List String) (i : Nat) :
    (lineDiffAux as bs).2[i]? =
      match as[i]?, bs[i]? with
      | some la, some lb => some (if la = lb then ⟨lb, "same", none⟩
          else ⟨lb, "changed", some (computeWordDiff la lb).2⟩)
      | some _, none => some (⟨"", "empty", none⟩ : LineRecord)
      | none, some lb => some ⟨lb, "added", none⟩
      | none, none => none := by
  induction as generalizing bs i with
  | nil =>
    induction bs generalizing i with
    | nil => simp [lineDiffAux]
    | cons b bs ihb =>
      cases i with
      | zero => simp [lineDiffAux]
      | succ i => simpa [lineDiffAux] using ihb i
  | cons a as ih =>
    cases bs with
    | nil =>
      cases i with
      | zero => simp [lineDiffAux]
      | succ i => simpa [lineDiffAux] using ih [] i
    | cons b bs =>
      by_cases hab : a = b
      · cases i with
        | zero => simp [lineDiffAux, hab]
        | succ i => simpa [lineDiffAux, hab] using ih bs i
      · cases i with
        | zero => simp [lineDiffAux, hab]
        | succ i => simpa [lineDiffAux, hab] using ih bs i
/-- C4: `computeLineDiff` splits each input on the single newline
character without special-casing a trailing newline (a trailing newline
yields a trailing empty-string line), returns two sequences of identical
length `max(lineCountA, lineCountB)`, and classifies strictly by index:
equal lines give `same` on both sides; a line present only in A gives
`removed` on A and an `empty` placeholder on B; a line present only in B
gives `empty` on A and `added` on B; lines present on both sides but
unequal give `changed` on both sides, each carrying the word-level
sub-diff of the two lines. -/
theorem computeLineDiff_positional_spec (textA textB : String) :
    (computeLineDiff textA textB).1.length
        = max (splitLines textA).length (splitLines textB).length ∧
    (computeLineDiff textA textB).2.length
        = max (splitLines textA).length (splitLines textB).length ∧
    (∀ s : String, splitLines (s.push '\n') = splitLines s ++ [""]) ∧
    (∀ (i : Nat) (la lb : String), (splitLines textA)[i]? = some la → (splitLines textB)[i]? = some lb →
      la = lb →
      (computeLineDiff textA textB).1[i]? = some (LineRecord.mk la "same" none) ∧
      (computeLineDiff textA textB).2[i]? = some (LineRecord.mk lb "same" none)) ∧
    (∀ (i : Nat) (la lb : String), (splitLines textA)[i]? = some la → (splitLines textB)[i]? = some lb →
      la ≠ lb →
      (computeLineDiff textA textB).1[i]?
          = some (LineRecord.mk la "changed" (some (computeWordDiff la lb).1)) ∧
      (computeLineDiff textA textB).2[i]?
          = some (LineRecord.mk lb "changed" (some (computeWordDiff la lb).2))) ∧
    (∀ (i : Nat) (la : String), (splitLines textA)[i]? = some la → (splitLines textB)[i]? = none →
      (computeLineDiff textA textB).1[i]? = some (LineRecord.mk la "removed" none) ∧
      (computeLineDiff textA textB).2[i]? = some (LineRecord.mk "" "empty" none)) ∧
    (∀ (i : Nat) (lb : String), (splitLines textA)[i]? = none → (splitLines textB)[i]? = some lb →
      (computeLineDiff textA textB).1[i]? = some (LineRecord.mk "" "empty" none) ∧
      (computeLineDiff textA textB).2[i]? = some (LineRecord.mk lb "added" none)) := by
  rw [computeLineDiff_eq_aux]
  refine ⟨lineDiffAux_fst_length _ _, lineDiffAux_snd_length _ _, splitLines_push_nl,
    ?_, ?_, ?_, ?_⟩
  · intro i la lb hA hB hEq
    constructor
    · rw [lineDiffAux_fst_get, hA, hB]
      simp [hEq]
    · rw [lineDiffAux_snd_get, hA, hB]
      simp [hEq]
  · intro i la lb hA hB hNe
    constructor
    · rw [lineDiffAux_fst_get, hA, hB]
      simp [hNe]
    · rw [lineDiffAux_snd_get, hA, hB]
      simp [hNe]
  · intro i la hA hB
    constructor
    · rw [lineDiffAux_fst_get, hA, hB]
    · rw [lineDiffAux_snd_get, hA, hB]
  · intro i lb hA hB
    constructor
    · rw [lineDiffAux_fst_get, hA, hB]
    · rw [lineDiffAux_snd_get, hA, hB]

/-- Witness for C4: on `"x\na\nb"` vs `"x\nc"` index 0 is `same`, index 1
is `changed` with the word-level sub-diff attached, index 2 is `removed`
on the A side; on `"q"` vs `"q\nz"` index 1 is `added` on the B side. -/
theorem computeLineDiff_positional_spec_witness :
    (computeLineDiff "x\na\nb" "x\nc").1[0]? = some (LineRecord.mk "x" "same" none) ∧
    (computeLineDiff "x\na\nb" "x\nc").1[1]?
      = some (LineRecord.mk "a" "changed" (some (computeWordDiff "a" "c").1)) ∧
    (computeLineDiff "x\na\nb" "x\nc").1[2]? = some (LineRecord.mk "b" "removed" none) ∧
    (computeLineDiff "q" "q\nz").2[1]? = some (LineRecord.mk "z" "added" none) := by
  have h := computeLineDiff_positional_spec "x\na\nb" "x\nc"
  have h2 := computeLineDiff_positional_spec "q" "q\nz"
  refine ⟨?_, ?_, ?_, ?_⟩
  · exact (h.2.2.2.1 0 "x" "x" (by decide) (by decide) rfl).1
  · exact (h.2.2.2.2.1 1 "a" "c" (by decide) (by decide) (by decide)).1
  · exact (h.2.2.2.2.2.1 2 "b" (by decide) (by decide)).1
  · exact (h2.2.2.2.2.2.2 1 "z" (by decide) (by decide)).2

/-- C7: `computeWordDiff` splits each line on runs of whitespace while
retaining the whitespace runs as elements, so concatenating the `text`
fields of each output sequence in order reconstructs the corresponding
original input line exactly. -/
theorem computeWordDiff_roundtrip (lineA lineB : String) :
    String.join ((computeWordDiff lineA lineB).1.map WordRecord.text) = lineA ∧
    String.join ((computeWordDiff lineA lineB).2.map WordRecord.text) = lineB := by
  rw [computeWordDiff_eq_aux]
  constructor
  · rw [wordDiffAux_fst_texts]
    exact splitKeepWs_join lineA
  · rw [wordDiffAux_snd_texts]
    exact splitKeepWs_join lineB

/-- C10 (implicit): each side of `computeWordDiff` carries exactly its
own line's whitespace-preserving tokens in order (so its length is its
own token count, and tokens past the shorter side's length appear only
in the longer side's sequence), no `empty` placeholder record is ever
emitted at word level, and the two sequences have equal length exactly
when the token counts agree. -/
theorem computeWordDiff_lengths (lineA lineB : String) :
    (computeWordDiff lineA lineB).1.map WordRecord.text = splitKeepWs lineA ∧
    (computeWordDiff lineA lineB).2.map WordRecord.text = splitKeepWs lineB ∧
    (computeWordDiff lineA lineB).1.length = (splitKeepWs lineA).length ∧
    (computeWordDiff lineA lineB).2.length = (splitKeepWs lineB).length ∧
    (∀ r ∈ (computeWordDiff lineA lineB).1, r.type ≠ "empty") ∧
    (∀ r ∈ (computeWordDiff lineA lineB).2, r.type ≠ "empty") ∧
    ((computeWordDiff lineA lineB).1.length = (computeWordDiff lineA lineB).2.length
      ↔ (splitKeepWs lineA).length = (splitKeepWs lineB).length) := by
  rw [computeWordDiff_eq_aux]
  have h1 := wordDiffAux_fst_texts (splitKeepWs lineA) (splitKeepWs lineB)
  have h2 := wordDiffAux_snd_texts (splitKeepWs lineA) (splitKeepWs lineB)
  have hl1 := congrArg List.length h1
  have hl2 := congrArg List.length h2
  rw [List.length_map] at hl1 hl2
  refine ⟨h1, h2, hl1, hl2, ?_, ?_, by rw [hl1, hl2]⟩
  · intro r hr
    rcases wordDiffAux_fst_types _ _ r hr with ht | ht <;> simp [ht]
  · intro r hr
    rcases wordDiffAux_snd_types _ _ r hr with ht | ht <;> simp [ht]

/-- Witness for C10: on `"a b"` vs `"a"` the A side has three records
(the tokens `a`, the space run, `b`), the B side one, and the concrete
record types are never `empty`. -/
theorem computeWordDiff_lengths_witness :
    (computeWordDiff "a b" "a").1.length = (splitKeepWs "a b").length ∧
    (WordRecord.mk " " "removed").type ≠ "empty" ∧
    (WordRecord.mk "a" "same").type ≠ "empty" ∧
    ((computeWordDiff "a b" "a").1.length = (computeWordDiff "a b" "a").2.length
      ↔ (splitKeepWs "a b").length = (splitKeepWs "a").length) := by
  have h := computeWordDiff_lengths "a b" "a"
  refine ⟨h.2.2.1, ?_, ?_, h.2.2.2.2.2.2⟩
  · exact h.2.2.2.2.1 ⟨" ", "removed"⟩ (by decide)
  · exact h.2.2.2.2.2.1 ⟨"a", "same"⟩ (by decide)
theorem foldl_append_flatMap {α β : Type} (f : α → List β) (step : List β → α → List β)
    (hstep : ∀ (acc : List β) (x : α), step acc x = acc ++ f x) (l : List α) (a : List β) :
    l.foldl step a = a ++ l.flatMap f := by
  induction l generalizing a with
  | nil => simp
  | cons x l ih =>
    rw [List.foldl_cons, hstep, ih, List.flatMap_cons]
    simp

theorem foldl_append_flatMap_nil {α β : Type} (f : α → List β) (step : List β → α → List β)
    (hstep : ∀ (acc : List β) (x : α), step acc x = acc ++ f x) (l : List α) :
    l.foldl step [] = l.flatMap f := by
  rw [foldl_append_flatMap f step hstep]
  simp

theorem getPromptDifferences_decomp (A B : PromptState) :
    getPromptDifferences (some A) (some B)
      = (promptMap A.prompts).flatMap (compareRecords A B)
        ++ (promptMap B.prompts).flatMap (addedRecords A) := by
  simp only [getPromptDifferences]
  congr 1
  · refine foldl_append_flatMap_nil (compareRecords A B) _ ?_ _
    intro acc kv
    cases hB : mapGet (promptMap B.prompts) kv.1 with
    | none => simp [compareRecords, hB]
    | some pB =>
      by_cases hc : kv.2.content = pB.content <;>
      by_cases he : resolveEnabled A.promptOrder kv.1 = resolveEnabled B.promptOrder kv.1 <;>
        simp [compareRecords, hB, hc, he]
  · refine foldl_append_flatMap_nil (addedRecords A) _ ?_ _
    intro acc kv
    by_cases h : mapHas (promptMap A.prompts) kv.1 <;> simp [addedRecords, h]

theorem mem_diff_iff (A B : PromptState) (r : DiffRecord) :
    r ∈ getPromptDifferences (some A) (some B) ↔
      (∃ kv ∈ promptMap A.prompts, r ∈ compareRecords A B kv) ∨
      (∃ kv ∈ promptMap B.prompts, r ∈ addedRecords A kv) := by
  rw [getPromptDifferences_decomp]
  simp [List.mem_append, List.mem_flatMap]

theorem mapSet_keys_nodup (m : List (String × Prompt)) (k : String) (v : Prompt)
    (h : (m.map Prod.fst).Nodup) : ((mapSet m k v).map Prod.fst).Nodup := by
  unfold mapSet
  split
  · have hkeys : (m.map (fun kv => if kv.1 == k then (k, v) else kv)).map Prod.fst
        = m.map Prod.fst := by
      rw [List.map_map]
      apply List.map_congr_left
      intro kv _
      by_cases hk : kv.1 == k
      · have hk2 : kv.1 = k := by simpa using hk
        simp [hk, hk2]
      · have hk2 : ¬(kv.1 = k) := by simpa using hk
        simp only [Function.comp_apply, beq_iff_eq, if_neg hk2]
    rw [hkeys]
    exact h
  · rename_i hany
    rw [List.map_append]
    have hk : k ∉ m.map Prod.fst := by
      intro hmem
      apply hany
      rcases List.mem_map.mp hmem with ⟨kv, hkv, hfst⟩
      exact List.any_eq_true.mpr ⟨kv, hkv, by simp [hfst]⟩
    simp [List.nodup_append, h, hk]

theorem promptMap_keys_nodup (ps : List Prompt) : ((promptMap ps).map Prod.fst).Nodup := by
  suffices hgen : ∀ (l : List Prompt) (m : List (String × Prompt)),
      (m.map Prod.fst).Nodup →
      ((l.foldl (fun m p => mapSet m p.identifier p) m).map Prod.fst).Nodup by
    exact hgen ps [] (by simp)
  intro l
  induction l with
  | nil => intro m h; exact h
  | cons p l ih =>
    intro m h
    exact ih _ (mapSet_keys_nodup m p.identifier p h)

theorem find?_eq_of_mem_nodup (m : List (String × Prompt)) (kv : String × Prompt)
    (hnd : (m.map Prod.fst).Nodup) (hm : kv ∈ m) :
    m.find? (fun x => x.1 == kv.1) = some kv := by
  induction m with
  | nil => cases hm
  | cons hd t ih =>
    rw [List.map_cons, List.nodup_cons] at hnd
    rcases List.mem_cons.mp hm with rfl | hm2
    · rw [List.find?_cons_of_pos]
      simp
    · have hne : ¬(hd.1 == kv.1) := by
        intro he
        apply hnd.1
        have : kv.1 ∈ t.map Prod.fst := List.mem_map_of_mem Prod.fst hm2
        have heq : hd.1 = kv.1 := by simpa using he
        rw [heq]
        exact this
      rw [@List.find?_cons_of_neg _ (fun x => x.1 == kv.1) hd t hne]
      exact ih hnd.2 hm2

theorem mapGet_eq_some_of_mem (m : List (String × Prompt)) (kv : String × Prompt)
    (hnd : (m.map Prod.fst).Nodup) (hm : kv ∈ m) : mapGet m kv.1 = some kv.2 := by
  rw [mapGet, find?_eq_of_mem_nodup m kv hnd hm]
  rfl

theorem mem_of_mapGet_eq_some (m : List (String × Prompt)) (k : String) (p : Prompt)
    (h : mapGet m k = some p) : (k, p) ∈ m := by
  rw [mapGet] at h
  cases hf : m.find? (fun x => x.1 == k) with
  | none => rw [hf] at h; cases h
  | some kv =>
    rw [hf] at h
    have hkey : kv.1 = k := by simpa using List.find?_some hf
    have hval : kv.2 = p := by simpa using h
    have : (kv.1, kv.2) = kv := rfl
    rw [← hkey, ← hval, this]
    exact List.mem_of_find?_eq_some hf

theorem mapHas_false_iff (m : List (String × Prompt)) (k : String) :
    mapHas m k = false ↔ mapGet m k = none := by
  rw [mapHas, mapGet]
  simp [List.find?_eq_none, List.any_eq_true]

theorem mapHas_of_mem (m : List (String × Prompt)) (kv : String × Prompt) (hm : kv ∈ m) :
    mapHas m kv.1 = true :=
  List.any_eq_true.mpr ⟨kv, hm, by simp⟩

theorem mem_compareRecords_elim (A B : PromptState) (kv : String × Prompt) (r : DiffRecord)
    (h : r ∈ compareRecords A B kv) :
    (mapGet (promptMap B.prompts) kv.1 = none ∧ r = DiffRecord.removed kv.1 kv.2.name) ∨
    (∃ pB, mapGet (promptMap B.prompts) kv.1 = some pB ∧ kv.2.content ≠ pB.content ∧
        r = DiffRecord.contentChanged kv.1 kv.2.name kv.2.content pB.content) ∨
    (∃ pB, mapGet (promptMap B.prompts) kv.1 = some pB ∧
        resolveEnabled A.promptOrder kv.1 ≠ resolveEnabled B.promptOrder kv.1 ∧
        r = DiffRecord.enabledChanged kv.1 kv.2.name (resolveEnabled A.promptOrder kv.1)
              (resolveEnabled B.promptOrder kv.1)) := by
  unfold compareRecords at h
  cases hB : mapGet (promptMap B.prompts) kv.1 with
  | none =>
    rw [hB] at h
    simp at h
    exact Or.inl ⟨rfl, h⟩
  | some pB =>
    rw [hB] at h
    by_cases hc : kv.2.content = pB.content <;>
      by_cases he : resolveEnabled A.promptOrder kv.1 = resolveEnabled B.promptOrder kv.1 <;>
      simp [hc, he] at h
    · exact Or.inr (Or.inr ⟨pB, rfl, he, h⟩)
    · exact Or.inr (Or.inl ⟨pB, rfl, hc, h⟩)
    · rcases h with h | h
      · exact Or.inr (Or.inl ⟨pB, rfl, hc, h⟩)
      · exact Or.inr (Or.inr ⟨pB, rfl, he, h⟩)

theorem removed_mem_compareRecords (A B : PromptState) (kv : String × Prompt)
    (h : mapGet (promptMap B.prompts) kv.1 = none) :
    DiffRecord.removed kv.1 kv.2.name ∈ compareRecords A B kv := by
  simp [compareRecords, h]

theorem contentChanged_mem_compareRecords (A B : PromptState) (kv : String × Prompt)
    (pB : Prompt) (h : mapGet (promptMap B.prompts) kv.1 = some pB)
    (hc : kv.2.content ≠ pB.content) :
    DiffRecord.contentChanged kv.1 kv.2.name kv.2.content pB.content
      ∈ compareRecords A B kv := by
  simp [compareRecords, h, hc]

theorem enabledChanged_mem_compareRecords (A B : PromptState) (kv : String × Prompt)
    (pB : Prompt) (h : mapGet (promptMap B.prompts) kv.1 = some pB)
    (he : resolveEnabled A.promptOrder kv.1 ≠ resolveEnabled B.promptOrder kv.1) :
    DiffRecord.enabledChanged kv.1 kv.2.name (resolveEnabled A.promptOrder kv.1)
        (resolveEnabled B.promptOrder kv.1) ∈ compareRecords A B kv := by
  by_cases hc : kv.2.content = pB.content <;> simp [compareRecords, h, hc, he]

theorem mem_addedRecords_elim (A : PromptState) (kv : String × Prompt) (r : DiffRecord)
    (h : r ∈ addedRecords A kv) :
    mapHas (promptMap A.prompts) kv.1 = false ∧ r = DiffRecord.added kv.1 kv.2.name := by
  unfold addedRecords at h
  by_cases hh : mapHas (promptMap A.prompts) kv.1 <;> simp [hh] at h
  exact ⟨by simpa using hh, h⟩

theorem added_mem_addedRecords (A : PromptState) (kv : String × Prompt)
    (h : mapHas (promptMap A.prompts) kv.1 = false) :
    DiffRecord.added kv.1 kv.2.name ∈ addedRecords A kv := by
  simp [addedRecords, h]
/-- C9: when either input snapshot is absent (`null`), the diff is the
empty sequence rather than a failure. -/
theorem getPromptDifferences_null (a b : Option PromptState)
    (h : a = none ∨ b = none) : getPromptDifferences a b = [] := by
  rcases h with rfl | rfl
  · cases b <;> rfl
  · cases a <;> rfl

/-- Witness for C9 at a concrete snapshot: comparing against `null` on
either side yields the empty sequence. -/
theorem getPromptDifferences_null_witness :
    getPromptDifferences none (some sampleA) = [] ∧
    getPromptDifferences (some sampleA) none = [] :=
  ⟨getPromptDifferences_null none (some sampleA) (Or.inl rfl),
   getPromptDifferences_null (some sampleA) none (Or.inr rfl)⟩

/-- C6: `diff(A, A)` is the empty sequence for every snapshot `A`, and
the empty sequence is the only result the rendering caller treats as
"no differences" (`differences.length === 0`). -/
theorem getPromptDifferences_self (A : PromptState) :
    getPromptDifferences (some A) (some A) = [] ∧
    (∀ d : List DiffRecord, rendersNoDifferences d = true ↔ d = []) := by
  constructor
  · rw [getPromptDifferences_decomp]
    have h1 : ∀ kv ∈ promptMap A.prompts, compareRecords A A kv = [] := by
      intro kv hkv
      have hget : mapGet (promptMap A.prompts) kv.1 = some kv.2 :=
        mapGet_eq_some_of_mem _ kv (promptMap_keys_nodup A.prompts) hkv
      simp [compareRecords, hget]
    have h2 : ∀ kv ∈ promptMap A.prompts, addedRecords A kv = [] := by
      intro kv hkv
      simp [addedRecords, mapHas_of_mem _ kv hkv]
    rw [List.flatMap_eq_nil_iff.mpr h1, List.flatMap_eq_nil_iff.mpr h2]
    rfl
  · intro d
    simp [rendersNoDifferences, List.length_eq_zero]

/-- C1: after `generateWithState` returns — for every snapshot, test
input, and outcome of the external generation call (success or
rejection, with the transcript possibly mutated in between) — the live
transcript equals its pre-call value (truncated and refilled from the
pre-capture copy) and the live configuration equals its pre-call value
(restored via `applyPromptState` from the baseline captured in step 1;
when that capture returned `null` the restore is skipped, and the
configuration was never touched because `applyPromptState` also
no-ops without a prompt manager). -/
theorem generateWithState_restores (live : LiveState) (state : Option PromptState)
    (testMessage : Option String) (gen : GenOutcome) (callbackTexts : List String) :
    (generateWithState live state testMessage gen callbackTexts).2.chat = live.chat ∧
    (generateWithState live state testMessage gen callbackTexts).2.pmSettings
      = live.pmSettings := by
  obtain ⟨pmS, preset, chat, n1, now, loc⟩ := live
  cases pmS with
  | none =>
    cases state <;> cases gen <;> cases testMessage <;>
      simp [generateWithState, captureCurrentPromptState, applyPromptState, apply_ite]
  | some pms =>
    obtain ⟨pr, po⟩ := pms
    cases state <;> cases gen <;> cases testMessage <;>
      simp [generateWithState, captureCurrentPromptState, applyPromptState, apply_ite]

/-- C2: `generateWithState` never raises to its caller (its embedding is
a total function): it produces either the generated text (the resolved
result, or the last callback text when the result is absent or empty)
or, when the awaited generation call rejects, the descriptive string
`Error: <message>` built from the failure — a locally recovered
failure, not a propagated fault. -/
theorem generateWithState_output (live : LiveState) (state : Option PromptState)
    (testMessage : Option String) (callbackTexts : List String)
    (chatAfter : List ChatMessage) (msg : String) (result : Option String) :
    (generateWithState live state testMessage (GenOutcome.failure chatAfter msg)
        callbackTexts).1 = "Error: " ++ msg ∧
    (generateWithState live state testMessage (GenOutcome.success chatAfter result)
        callbackTexts).1 = finalText callbackTexts result := by
  constructor <;> rfl
/-- C3: for an identifier `k` present in both snapshots' prompt maps,
the enabled flag on each side is resolved by scanning that snapshot's
`promptOrder` for the first entry whose order list contains `k` (taking
that entry's `enabled`, undefined when `k` appears in no order list),
`enabledChanged` is emitted exactly when the two resolved values differ,
and this is independent of the content comparison, so one identifier can
yield both a `contentChanged` and an `enabledChanged` record. -/
theorem getPromptDifferences_enabled (A B : PromptState) (k : String) (pA pB : Prompt)
    (hA : mapGet (promptMap A.prompts) k = some pA)
    (hB : mapGet (promptMap B.prompts) k = some pB) :
    (DiffRecord.enabledChanged k pA.name (resolveEnabled A.promptOrder k)
        (resolveEnabled B.promptOrder k) ∈ getPromptDifferences (some A) (some B)
      ↔ resolveEnabled A.promptOrder k ≠ resolveEnabled B.promptOrder k) ∧
    (pA.content ≠ pB.content →
      DiffRecord.contentChanged k pA.name pA.content pB.content
        ∈ getPromptDifferences (some A) (some B)) ∧
    (∀ (pre suf : List PromptOrderEntry) (o : PromptOrderEntry),
      A.promptOrder = pre ++ o :: suf →
      (∀ o2 ∈ pre, entryHas o2 k = false) → entryHas o k = true →
      resolveEnabled A.promptOrder k
        = ((o.order.getD []).find? (fun e => e.identifier == k)).map OrderItem.enabled) ∧
    ((∀ o ∈ A.promptOrder, entryHas o k = false) → resolveEnabled A.promptOrder k = none) := by
  have hmemA : (k, pA) ∈ promptMap A.prompts := mem_of_mapGet_eq_some _ _ _ hA
  refine ⟨⟨?_, ?_⟩, ?_, ?_, ?_⟩
  · intro hmem
    rcases (mem_diff_iff A B _).mp hmem with ⟨kv, hkv, hin⟩ | ⟨kv, hkv, hin⟩
    · rcases mem_compareRecords_elim A B kv _ hin with ⟨_, heq⟩ | ⟨pB2, _, _, heq⟩ |
        ⟨pB2, _, he, heq⟩
      · simp at heq
      · simp at heq
      · have hk : k = kv.1 := by
          have := congrArg DiffRecord.idOf heq
          simpa [DiffRecord.idOf] using this
        rw [hk]
        exact he
    · obtain ⟨_, heq⟩ := mem_addedRecords_elim A kv _ hin
      simp at heq
  · intro hne
    apply (mem_diff_iff A B _).mpr
    left
    exact ⟨(k, pA), hmemA, enabledChanged_mem_compareRecords A B (k, pA) pB hB hne⟩
  · intro hc
    apply (mem_diff_iff A B _).mpr
    left
    exact ⟨(k, pA), hmemA, contentChanged_mem_compareRecords A B (k, pA) pB hB hc⟩
  · intro pre suf o hsplit hpre ho
    have hpre2 : pre.find? (fun x => entryHas x k) = none := by
      apply List.find?_eq_none.mpr
      intro x hx
      simp [hpre x hx]
    rw [resolveEnabled, hsplit, List.find?_append, hpre2, Option.none_or,
      @List.find?_cons_of_pos _ (fun x => entryHas x k) o suf ho]
  · intro hall
    rw [resolveEnabled, List.find?_eq_none.mpr]
    intro x hx
    simp [hall x hx]

/-- Witness for C3 on the sample snapshots: `p1` (present in both, with
content and enabled both differing) yields both records; its enabled
flag resolves through the first order entry; the orderless prompt `p3`
resolves to undefined. -/
theorem getPromptDifferences_enabled_witness :
    (DiffRecord.enabledChanged "p1" promptP1A.name (resolveEnabled sampleA.promptOrder "p1")
        (resolveEnabled sampleB.promptOrder "p1")
      ∈ getPromptDifferences (some sampleA) (some sampleB)) ∧
    (DiffRecord.contentChanged "p1" promptP1A.name promptP1A.content promptP1B.content
      ∈ getPromptDifferences (some sampleA) (some sampleB)) ∧
    resolveEnabled sampleA.promptOrder "p1" = some true ∧
    resolveEnabled sampleA.promptOrder "p3" = none := by
  have h1 := getPromptDifferences_enabled sampleA sampleB "p1" promptP1A promptP1B
    (by decide) (by decide)
  have h3 := getPromptDifferences_enabled sampleA sampleB "p3" promptP3 promptP3
    (by decide) (by decide)
  refine ⟨h1.1.mpr (by decide), h1.2.1 (by decide), ?_, h3.2.2.2 (by decide)⟩
  exact (h1.2.2.1 [] [] ⟨some [⟨"p1", true⟩]⟩ rfl (by decide) (by decide)).trans (by decide)

/-- C5: `diff(A, B)` and `diff(B, A)` are consistent inverses: an
`added` record in one direction is a `removed` record with the same
identifier and name in the other, and every `contentChanged`
(resp. `enabledChanged`) record corresponds to one in the other
direction with its A/B fields swapped. -/
theorem getPromptDifferences_inverse (A B : PromptState) :
    (∀ k n, DiffRecord.added k n ∈ getPromptDifferences (some A) (some B)
        ↔ DiffRecord.removed k n ∈ getPromptDifferences (some B) (some A)) ∧
    (∀ k n ca cb,
      DiffRecord.contentChanged k n ca cb ∈ getPromptDifferences (some A) (some B)
        → ∃ n2, DiffRecord.contentChanged k n2 cb ca
            ∈ getPromptDifferences (some B) (some A)) ∧
    (∀ k n ea eb,
      DiffRecord.enabledChanged k n ea eb ∈ getPromptDifferences (some A) (some B)
        → ∃ n2, DiffRecord.enabledChanged k n2 eb ea
            ∈ getPromptDifferences (some B) (some A)) := by
  refine ⟨?_, ?_, ?_⟩
  · intro k n
    constructor
    · intro hmem
      rcases (mem_diff_iff A B _).mp hmem with ⟨kv, hkv, hin⟩ | ⟨kv, hkv, hin⟩
      · rcases mem_compareRecords_elim A B kv _ hin with ⟨_, heq⟩ | ⟨pB, _, _, heq⟩ |
          ⟨pB, _, _, heq⟩ <;> simp at heq
      · obtain ⟨hhas, heq⟩ := mem_addedRecords_elim A kv _ hin
        have hk : k = kv.1 ∧ n = kv.2.name := by simpa using heq
        obtain ⟨rfl, rfl⟩ := hk
        apply (mem_diff_iff B A _).mpr
        left
        exact ⟨kv, hkv, removed_mem_compareRecords B A kv ((mapHas_false_iff _ _).mp hhas)⟩
    · intro hmem
      rcases (mem_diff_iff B A _).mp hmem with ⟨kv, hkv, hin⟩ | ⟨kv, hkv, hin⟩
      · rcases mem_compareRecords_elim B A kv _ hin with ⟨hget, heq⟩ | ⟨pB, _, _, heq⟩ |
          ⟨pB, _, _, heq⟩
        · have hk : k = kv.1 ∧ n = kv.2.name := by simpa using heq
          obtain ⟨rfl, rfl⟩ := hk
          apply (mem_diff_iff A B _).mpr
          right
          exact ⟨kv, hkv, added_mem_addedRecords A kv ((mapHas_false_iff _ _).mpr hget)⟩
        · simp at heq
        · simp at heq
      · obtain ⟨_, heq⟩ := mem_addedRecords_elim B kv _ hin
        simp at heq
  · intro k n ca cb hmem
    rcases (mem_diff_iff A B _).mp hmem with ⟨kv, hkv, hin⟩ | ⟨kv, hkv, hin⟩
    · rcases mem_compareRecords_elim A B kv _ hin with ⟨_, heq⟩ | ⟨pB, hget, hne, heq⟩ |
        ⟨pB, _, _, heq⟩
      · simp at heq
      · have hk : k = kv.1 ∧ n = kv.2.name ∧ ca = kv.2.content ∧ cb = pB.content := by
          simpa using heq
        obtain ⟨rfl, -, rfl, rfl⟩ := hk
        refine ⟨pB.name, (mem_diff_iff B A _).mpr (Or.inl ?_)⟩
        have hgetA : mapGet (promptMap A.prompts) kv.1 = some kv.2 :=
          mapGet_eq_some_of_mem _ kv (promptMap_keys_nodup A.prompts) hkv
        exact ⟨(kv.1, pB), mem_of_mapGet_eq_some _ _ _ hget,
          contentChanged_mem_compareRecords B A (kv.1, pB) kv.2 hgetA
            (fun hcc => hne hcc.symm)⟩
      · simp at heq
    · obtain ⟨_, heq⟩ := mem_addedRecords_elim A kv _ hin
      simp at heq
  · intro k n ea eb hmem
    rcases (mem_diff_iff A B _).mp hmem with ⟨kv, hkv, hin⟩ | ⟨kv, hkv, hin⟩
    · rcases mem_compareRecords_elim A B kv _ hin with ⟨_, heq⟩ | ⟨pB, _, _, heq⟩ |
        ⟨pB, hget, hne, heq⟩
      · simp at heq
      · simp at heq
      · have hk : k = kv.1 ∧ n = kv.2.name ∧ ea = resolveEnabled A.promptOrder kv.1
            ∧ eb = resolveEnabled B.promptOrder kv.1 := by
          simpa using heq
        obtain ⟨rfl, -, rfl, rfl⟩ := hk
        refine ⟨pB.name, (mem_diff_iff B A _).mpr (Or.inl ?_)⟩
        have hgetA : mapGet (promptMap A.prompts) kv.1 = some kv.2 :=
          mapGet_eq_some_of_mem _ kv (promptMap_keys_nodup A.prompts) hkv
        exact ⟨(kv.1, pB), mem_of_mapGet_eq_some _ _ _ hget,
          enabledChanged_mem_compareRecords B A (kv.1, pB) kv.2 hgetA
            (fun hee => hne hee.symm)⟩
    · obtain ⟨_, heq⟩ := mem_addedRecords_elim A kv _ hin
      simp at heq

/-- Witness for C5 on the sample snapshots: `p2` is `added` in one
direction and `removed` in the other, and the `contentChanged` and
`enabledChanged` records for `p1` appear with their A/B fields swapped
in the reverse direction. -/
theorem getPromptDifferences_inverse_witness :
    (DiffRecord.added "p2" "Name2" ∈ getPromptDifferences (some sampleA) (some sampleB)
      ↔ DiffRecord.removed "p2" "Name2"
          ∈ getPromptDifferences (some sampleB) (some sampleA)) ∧
    (∃ n2, DiffRecord.contentChanged "p1" n2 "Hi" "Hello"
      ∈ getPromptDifferences (some sampleB) (some sampleA)) ∧
    (∃ n2, DiffRecord.enabledChanged "p1" n2 (some false) (some true)
      ∈ getPromptDifferences (some sampleB) (some sampleA)) := by
  have h := getPromptDifferences_inverse sampleA sampleB
  refine ⟨h.1 "p2" "Name2", ?_, ?_⟩
  · exact h.2.1 "p1" "Name1" "Hello" "Hi" (by decide)
  · exact h.2.2 "p1" "Name1" (some true) (some false) (by decide)

/-- C8: the diff output is ordered as all per-identifier records
(`removed`/`contentChanged`/`enabledChanged`, never `added`) for the
entries of A's prompt map in A's key order, followed by the pure
`added` records for identifiers present only in B; every key of B
absent from A contributes its `added` record to that tail. -/
theorem getPromptDifferences_order (A B : PromptState) :
    getPromptDifferences (some A) (some B)
      = (promptMap A.prompts).flatMap (compareRecords A B)
        ++ (promptMap B.prompts).flatMap (addedRecords A) ∧
    (∀ (kv : String × Prompt) (r : DiffRecord), r ∈ compareRecords A B kv →
      r.idOf = kv.1 ∧ r.isAdd = false) ∧
    (∀ (kv : String × Prompt) (r : DiffRecord), r ∈ addedRecords A kv →
      r = DiffRecord.added kv.1 kv.2.name ∧ mapHas (promptMap A.prompts) kv.1 = false) ∧
    (∀ kv ∈ promptMap B.prompts, mapHas (promptMap A.prompts) kv.1 = false →
      DiffRecord.added kv.1 kv.2.name
        ∈ (promptMap B.prompts).flatMap (addedRecords A)) := by
  refine ⟨getPromptDifferences_decomp A B, ?_, ?_, ?_⟩
  · intro kv r hr
    rcases mem_compareRecords_elim A B kv r hr with ⟨_, heq⟩ | ⟨pB, _, _, heq⟩ |
      ⟨pB, _, _, heq⟩ <;> subst heq <;> simp [DiffRecord.idOf, DiffRecord.isAdd]
  · intro kv r hr
    obtain ⟨hh, heq⟩ := mem_addedRecords_elim A kv r hr
    exact ⟨heq, hh⟩
  · intro kv hkv hh
    exact List.mem_flatMap.mpr ⟨kv, hkv, added_mem_addedRecords A kv hh⟩

/-- Witness for C8 on the sample snapshots: the concrete decomposition,
a per-identifier record that is not `added` and keeps its entry's key,
and the `added` record for the B-only key `p2` in the tail. -/
theorem getPromptDifferences_order_witness :
    (getPromptDifferences (some sampleA) (some sampleB)
      = (promptMap sampleA.prompts).flatMap (compareRecords sampleA sampleB)
        ++ (promptMap sampleB.prompts).flatMap (addedRecords sampleA)) ∧
    (DiffRecord.contentChanged "p1" "Name1" "Hello" "Hi").idOf = "p1" ∧
    (DiffRecord.contentChanged "p1" "Name1" "Hello" "Hi").isAdd = false ∧
    mapHas (promptMap sampleA.prompts) "p2" = false ∧
    DiffRecord.added "p2" "Name2"
      ∈ (promptMap sampleB.prompts).flatMap (addedRecords sampleA) := by
  have h := getPromptDifferences_order sampleA sampleB
  refine ⟨h.1, ?_, ?_, ?_, ?_⟩
  · exact (h.2.1 ("p1", promptP1A)
      (DiffRecord.contentChanged "p1" "Name1" "Hello" "Hi") (by decide)).1
  · exact (h.2.1 ("p1", promptP1A)
      (DiffRecord.contentChanged "p1" "Name1" "Hello" "Hi") (by decide)).2
  · exact (h.2.2.1 ("p2", promptP2) (DiffRecord.added "p2" "Name2") (by decide)).2
  · exact h.2.2.2 ("p2", promptP2) (by decide) (by decide)
